import Mathlib

set_option linter.unusedVariables false

/-!
Verification of `src/tpool/tpool.hpp` (the `tpool` thread-pool library)
against its natural-language specification.

The header provides three components that the claims talk about:
the lock-based FIFO container `tpool::detail::queue<T>`, and the two pool
classes `tpool::thread_pool_std` (inline-locked `std::queue` discipline)
and `tpool::thread_pool_safe` (delegated thread-safe queue discipline).

Shallow embedding choices, all taken from the source:
  - `std::queue<T>` contents are a `List`, front at the head.
  - a submitted task body is a zero-argument callable that either returns
    a value or raises a failure, modelled as `Unit → Except Err Val`;
    `std::packaged_task` stores the value-or-raised-failure of the body
    into its shared state on invocation (standard library semantics), so
    the worker-side invocation itself never propagates the failure.
  - the concurrent pools are given an interleaving small-step semantics:
    each region the source executes while holding the pool mutex is one
    atomic step, and the out-of-lock task execution is a separate step.
    A step that would block (a condition-variable wait whose predicate is
    false) is disabled: the step function returns `none`.
  - lock discipline (which statements run while the pool mutex is held)
    is modelled separately as the literal event sequence of each critical
    region, so that claims about mutual exclusion can be checked against
    the exact source text.
-/

namespace TPool

/-- Failure payloads raised by task bodies (C++ exceptions, carried as text). -/
abbrev Err := String

/-- Values produced by task bodies. -/
abbrev Val := Nat

/-- A submitted task body: a zero-argument callable producing a value or a
failure (tpool.hpp, `enqueue` takes such a callable `task`). -/
def TaskFn : Type := Unit → Except Err Val

namespace detail

/-- Embedding of `tpool::detail::queue::push` (tpool.hpp lines 28-33): under the
queue mutex the value is appended at the rear of the underlying `std::queue`,
then one waiter is notified. The contents are the list, front first. -/
def push {τ : Type} (q : List τ) (value : τ) : List τ :=
  q ++ [value]

/-- Embedding of `tpool::detail::queue::pop` (tpool.hpp lines 36-43): under the
queue mutex it waits on the condition with predicate `!_queue.empty()` (line 39,
the predicate mentions nothing but emptiness), then makes a copy of the front
element, removes it and returns the copy. A call that finds the queue empty
blocks until someone pushes; on a queue that stays empty it never returns, so in
this state-based embedding a blocked call is `none`. -/
def pop {τ : Type} : List τ → Option (τ × List τ)
  | [] => none
  | x :: xs => some (x, xs)

/-- Embedding of `tpool::detail::queue::empty` (tpool.hpp lines 45-48). -/
def empty {τ : Type} (q : List τ) : Bool :=
  q.isEmpty

/-- Pop repeatedly until the queue is empty, collecting the popped values in
pop order: the observable dequeue sequence of a `detail::queue` state. -/
def drain {τ : Type} (q : List τ) : List τ :=
  match h : pop q with
  | none => []
  | some (v, rest) => v :: drain rest
termination_by q.length
decreasing_by
  cases q with
  | nil => simp [pop] at h
  | cons x xs =>
    simp [pop] at h
    simp [h.2]

theorem drain_nil {τ : Type} : drain ([] : List τ) = [] := by
  rw [drain]
  rfl

theorem drain_cons {τ : Type} (x : τ) (xs : List τ) :
    drain (x :: xs) = x :: drain xs := by
  rw [drain]
  rfl

theorem drain_id {τ : Type} (q : List τ) : drain q = q := by
  induction q with
  | nil => exact drain_nil
  | cons x xs ih => rw [drain_cons, ih]

theorem foldl_push {τ : Type} (vs acc : List τ) :
    vs.foldl push acc = acc ++ vs := by
  induction vs generalizing acc with
  | nil => simp
  | cons v vs ih => simp [List.foldl_cons, push, ih]

end detail

/-- Claim C9: `detail::queue<T>` implements exact FIFO sequence semantics:
`push` appends at the rear; `pop` on a non-empty queue returns (a copy of) the
front element and removes exactly that element, leaving the rest unchanged;
`empty` is true iff there are no elements; `pop` immediately after `push v` on
an empty queue returns `v`; and draining after any sequence of pushes onto an
empty queue returns exactly the pushed values in push order. -/
theorem c9_detail_queue_fifo {τ : Type} :
    (∀ (x : τ) (xs : List τ), detail.pop (x :: xs) = some (x, xs))
    ∧ (∀ q : List τ, detail.empty q = true ↔ q = [])
    ∧ (∀ v : τ, detail.pop (detail.push [] v) = some (v, []))
    ∧ (∀ vs : List τ, detail.drain (vs.foldl detail.push []) = vs) := by
  refine ⟨fun x xs => rfl, fun q => ?_, fun v => rfl, fun vs => ?_⟩
  · cases q <;> simp [detail.empty]
  · rw [detail.foldl_push, List.nil_append, detail.drain_id]

/-! ## Lock-discipline model

Each critical region of the pool sources is transcribed as the literal sequence
of synchronisation and container events it performs on the pool side. -/

/-- Events of a critical region: acquiring/releasing the mutex guarding the
task container, accessing the container (append or remove), waiting on the
condition variable (which returns with the lock re-acquired), and notifying. -/
inductive Ev
  | lockQ
  | unlockQ
  | pushEv
  | popEv
  | waitEv
  | notifyOne
  | notifyAll
deriving DecidableEq

/-- Does every container access (`pushEv`/`popEv`) in the event sequence happen
while the lock is held, starting from lock depth `d`? -/
def guardedFrom : Nat → List Ev → Bool
  | _, [] => true
  | d, Ev.lockQ :: es => guardedFrom (d + 1) es
  | d, Ev.unlockQ :: es => guardedFrom (d - 1) es
  | d, Ev.pushEv :: es => decide (0 < d) && guardedFrom d es
  | d, Ev.popEv :: es => decide (0 < d) && guardedFrom d es
  | d, Ev.waitEv :: es => guardedFrom d es
  | d, Ev.notifyOne :: es => guardedFrom d es
  | d, Ev.notifyAll :: es => guardedFrom d es

/-- All container accesses of the region happen under the mutex. -/
def guarded (es : List Ev) : Bool :=
  guardedFrom 0 es

/-- Event sequence of `thread_pool_std::enqueue` (tpool.hpp lines 128-147) with
respect to the pool mutex `_mutex`. Decisive detail, line 139: the statement
`std::unique_lock<std::mutex>(_mutex);` is not a lock acquisition. It is a
declaration (the parenthesised `(_mutex)` is a declarator) of a new block-local
variable named `_mutex`, of type `std::unique_lock<std::mutex>`, default
constructed and owning no mutex; it shadows the member `_mutex` and locks
nothing (and its destruction at line 141 unlocks nothing). The append
`_tasks.emplace(...)` at line 140 therefore runs with no lock held, and the
region contributes only a container push followed by `_event.notify_one()`. -/
def stdEnqueueEvents : List Ev :=
  [Ev.pushEv, Ev.notifyOne]

/-- Event sequence of the critical region of a `thread_pool_std` worker
iteration (tpool.hpp lines 164-173): `std::unique_lock<std::mutex> lock(_mutex)`
acquires the pool mutex, the condition wait returns holding it, the front task
is moved out and popped while it is held, and scope exit releases it. -/
def stdWorkerEvents : List Ev :=
  [Ev.lockQ, Ev.waitEv, Ev.popEv, Ev.unlockQ]

/-- Event sequence of `thread_pool_safe::enqueue` (tpool.hpp lines 246-266):
`std::unique_lock<std::mutex> lock(_mutex)` at line 257 is a named lock that
does acquire the pool mutex; the push at line 259 runs under it (and under the
delegated queue mutex inside `detail::queue::push` as well). -/
def safeEnqueueEvents : List Ev :=
  [Ev.lockQ, Ev.pushEv, Ev.unlockQ, Ev.notifyOne]

/-- Event sequence of the critical region of a `thread_pool_safe` worker
iteration (tpool.hpp lines 283-291): the pool mutex is held across the wait and
the `_tasks.pop()` call. -/
def safeWorkerEvents : List Ev :=
  [Ev.lockQ, Ev.waitEv, Ev.popEv, Ev.unlockQ]

/-- Claim C1 evaluated on the code: the claim states that every push and pop of
the pending-task container happens while the pool mutex is held. This holds for
the worker-side pop of `thread_pool_std` and for both sides of
`thread_pool_safe`, but it is false for `thread_pool_std::enqueue`: because
line 139 declares a shadowing local `_mutex` instead of locking (see
`stdEnqueueEvents`), the push runs with no lock held, so a concurrent push and
pop on the same `std::queue` are not mutually exclusive. -/
theorem c1_std_push_unguarded :
    guarded stdEnqueueEvents = false
    ∧ guarded stdWorkerEvents = true
    ∧ guarded safeEnqueueEvents = true
    ∧ guarded safeWorkerEvents = true := by
  decide

/-! ## Interleaving small-step semantics of the pools

The state records the per-pool data members of `thread_pool_std` /
`thread_pool_safe` plus the bookkeeping the claims observe: submitted task
bodies in submission order (task `id` = submission index), the
`std::packaged_task` shared states (futures), the pending-task container as a
list of ids, the worker threads, the log of executed ids in completion order,
and the `_stopping` flag. -/

/-- Status of one worker thread of the pool (spec 4.3: Waiting, Running,
terminal Exited). `running id` holds the task the worker moved out of the
container and has not yet finished executing. -/
inductive WStat
  | waiting
  | running (id : Nat)
  | exited
deriving DecidableEq

/-- The shared state of one pool. -/
structure St where
  bodies : List TaskFn
  futures : List (Option (Except Err Val))
  queue : List Nat
  workers : List WStat
  executed : List Nat
  stopping : Bool

/-- Pool construction (`start(num_threads)`, tpool.hpp lines 152-155 / 271-274):
`num_threads` workers are spawned immediately, each entering its loop in the
waiting state; all containers start empty and `_stopping` starts false. -/
def initPool (numThreads : Nat) : St :=
  { bodies := []
    futures := []
    queue := []
    workers := List.replicate numThreads WStat.waiting
    executed := []
    stopping := false }

/-- `count()` (tpool.hpp lines 123-125 / 241-243): the size of `_threads`. -/
def count (s : St) : Nat :=
  s.workers.length

/-- The atomic actions of the interleaving semantics: a submitter enqueues a
body, some thread calls `stop()`, worker `i` runs its critical region (wait,
exit test, pop), worker `i` executes its claimed task outside the lock. -/
inductive Act
  | enqueue (f : TaskFn)
  | stop
  | popa (i : Nat)
  | exec (i : Nat)

/-- What `std::invoke(task)` produces for task `id`: the wrapper invokes the
`std::packaged_task` holding body `id`, which runs the body and captures its
returned value or raised failure. -/
def runBody (s : St) (id : Nat) : Except Err Val :=
  match s.bodies.get? id with
  | some f => f ()
  | none => Except.error ("no such task")

/-- One atomic step of `thread_pool_std`, from the source:
  - `enqueue f` (lines 128-147): wrap `f` in a packaged task with a fresh
    unwritten future, append its id to `_tasks`, notify one waiter;
  - `stop` (lines 182-189): set `_stopping` (then notify all, which has no
    state content here);
  - `popa i` (lines 164-173): enabled when worker `i` is waiting and the wait
    predicate `_stopping || !_tasks.empty()` holds; if `_stopping` and the
    container is empty the worker breaks out of its loop (exits), otherwise the
    front id is moved out of `_tasks` (`front` then `pop`) and the worker turns
    running;
  - `exec i` (line 176): enabled when worker `i` is running id: the packaged
    task stores the body's outcome into future `id`, the execution completes,
    and the worker goes back to waiting at the top of its loop. -/
def stepStd (s : St) : Act → Option St
  | Act.enqueue f =>
    some { s with
      bodies := s.bodies ++ [f]
      futures := s.futures ++ [none]
      queue := s.queue ++ [s.bodies.length] }
  | Act.stop =>
    some { s with stopping := true }
  | Act.popa i =>
    match s.workers.get? i with
    | some WStat.waiting =>
      if s.stopping ∧ s.queue = [] then
        some { s with workers := s.workers.set i WStat.exited }
      else
        match s.queue with
        | [] => none
        | id :: rest =>
          some { s with
            queue := rest
            workers := s.workers.set i (WStat.running id) }
    | _ => none
  | Act.exec i =>
    match s.workers.get? i with
    | some (WStat.running id) =>
      some { s with
        futures := s.futures.set id (some (runBody s id))
        executed := s.executed ++ [id]
        workers := s.workers.set i WStat.waiting }
    | _ => none

/-- One atomic step of `thread_pool_safe`, from the source: identical loop and
lifecycle structure (lines 246-316), except that the container operations are
delegated to `detail::queue`: `enqueue` pushes via `detail::queue::push`
(line 259) and the worker claims its task via `detail::queue::pop` (line 290),
which yields the front element; a pop that would find the container empty is
the blocked case (it cannot occur past the wait and exit test, claim C10). -/
def stepSafe (s : St) : Act → Option St
  | Act.enqueue f =>
    some { s with
      bodies := s.bodies ++ [f]
      futures := s.futures ++ [none]
      queue := detail.push s.queue s.bodies.length }
  | Act.stop =>
    some { s with stopping := true }
  | Act.popa i =>
    match s.workers.get? i with
    | some WStat.waiting =>
      if s.stopping ∧ s.queue = [] then
        some { s with workers := s.workers.set i WStat.exited }
      else
        match detail.pop s.queue with
        | none => none
        | some (id, rest) =>
          some { s with
            queue := rest
            workers := s.workers.set i (WStat.running id) }
    | _ => none
  | Act.exec i =>
    match s.workers.get? i with
    | some (WStat.running id) =>
      some { s with
        futures := s.futures.set id (some (runBody s id))
        executed := s.executed ++ [id]
        workers := s.workers.set i WStat.waiting }
    | _ => none

/-- Run a pool from state `s` through a sequence of actions; `none` when some
action in the sequence is disabled at its state. -/
def runWith (step : St → Act → Option St) : St → List Act → Option St
  | s, [] => some s
  | s, a :: as =>
    match step s a with
    | none => none
    | some t => runWith step t as

/-- Executions of `thread_pool_std`. -/
def runStd : St → List Act → Option St :=
  runWith stepStd

/-- Executions of `thread_pool_safe`. -/
def runSafe : St → List Act → Option St :=
  runWith stepSafe

/-- Default thread count used by the default constructors of both pool classes
(tpool.hpp lines 101-104 and 219-222): the literal constant 8; the
`std::thread::hardware_concurrency()` alternative is commented out. -/
def defaultNumThreads : Nat := 8

/-- A default-constructed `thread_pool_std`. -/
def threadPoolStdDefault : St :=
  initPool defaultNumThreads

/-- A default-constructed `thread_pool_safe`. -/
def threadPoolSafeDefault : St :=
  initPool defaultNumThreads

/-- Claim C7: a default-constructed pool spawns exactly 8 worker threads, for
both classes: `count()` returns 8, the worker collection is literally 8 waiting
workers, and the default is the fixed constant 8 (not a run-time
hardware-concurrency query, which is commented out in the source). -/
theorem c7_default_eight :
    count threadPoolStdDefault = 8
    ∧ count threadPoolSafeDefault = 8
    ∧ threadPoolStdDefault.workers = List.replicate 8 WStat.waiting
    ∧ defaultNumThreads = 8 := by
  refine ⟨rfl, rfl, rfl, rfl⟩

/-! ## List helpers -/

theorem getq_set_self {α : Type} :
    ∀ (l : List α) (i : Nat) (x : α), i < l.length → (l.set i x).get? i = some x := by
  intro l
  induction l with
  | nil =>
    intro i x h
    exact absurd h (Nat.not_lt_zero i)
  | cons a as ih =>
    intro i x h
    cases i with
    | zero => rfl
    | succ n => exact ih n x (Nat.lt_of_succ_lt_succ h)

theorem getq_set_ne {α : Type} :
    ∀ (l : List α) (i j : Nat) (x : α), j ≠ i → (l.set i x).get? j = l.get? j := by
  intro l
  induction l with
  | nil =>
    intro i j x h
    rfl
  | cons a as ih =>
    intro i j x h
    cases i with
    | zero =>
      cases j with
      | zero => exact absurd rfl h
      | succ m => rfl
    | succ n =>
      cases j with
      | zero => rfl
      | succ m => exact ih n m x (fun hc => h (congrArg Nat.succ hc))

theorem getq_lt {α : Type} {l : List α} {i : Nat} {a : α}
    (h : l.get? i = some a) : i < l.length := by
  rcases List.get?_eq_some.mp h with ⟨hlt, _⟩
  exact hlt

theorem getq_concat_self {α : Type} :
    ∀ (l : List α) (a : α), (l ++ [a]).get? l.length = some a := by
  intro l a
  induction l with
  | nil => rfl
  | cons x xs ih => exact ih

theorem getq_append_left {α : Type} :
    ∀ (l₁ l₂ : List α) (i : Nat), i < l₁.length → (l₁ ++ l₂).get? i = l₁.get? i := by
  intro l₁
  induction l₁ with
  | nil =>
    intro l₂ i h
    exact absurd h (Nat.not_lt_zero i)
  | cons x xs ih =>
    intro l₂ i h
    cases i with
    | zero => rfl
    | succ n => exact ih l₂ n (Nat.lt_of_succ_lt_succ h)

/-! ## Claim C2: the two disciplines coincide -/

theorem step_std_eq_safe (s : St) (a : Act) : stepStd s a = stepSafe s a := by
  cases a with
  | enqueue f => rfl
  | stop => rfl
  | exec i => rfl
  | popa i =>
    simp only [stepStd, stepSafe]
    cases hw : s.workers.get? i with
    | none => rfl
    | some w =>
      cases w with
      | waiting =>
        by_cases hc : (s.stopping = true ∧ s.queue = [])
        · simp [hc]
        · simp only [hc, if_false]
          cases s.queue with
          | nil => rfl
          | cons id rest => rfl
      | running id => rfl
      | exited => rfl

theorem run_std_eq_safe (acts : List Act) :
    ∀ s : St, runStd s acts = runSafe s acts := by
  induction acts with
  | nil =>
    intro s
    rfl
  | cons a as ih =>
    intro s
    show runWith stepStd s (a :: as) = runWith stepSafe s (a :: as)
    simp only [runWith, step_std_eq_safe s a]
    cases stepSafe s a with
    | none => rfl
    | some t => exact ih t

/-- Claim C2: the inline-locked `std::queue` discipline (`thread_pool_std`) and
the delegated thread-safe queue discipline (`thread_pool_safe`) are
observationally equivalent: on every sequence of operations from a freshly
constructed pool the two machines produce the same outcome state, hence the
same `count()` results and the same task-dispatch order (the `executed` log). -/
theorem c2_disciplines_equivalent (n : Nat) (acts : List Act) :
    runStd (initPool n) acts = runSafe (initPool n) acts
    ∧ Option.map count (runStd (initPool n) acts)
        = Option.map count (runSafe (initPool n) acts)
    ∧ Option.map St.executed (runStd (initPool n) acts)
        = Option.map St.executed (runSafe (initPool n) acts) := by
  refine ⟨run_std_eq_safe acts (initPool n), ?_, ?_⟩ <;>
    rw [run_std_eq_safe acts (initPool n)]

/-! ## Claim C4: the worker exit condition -/

/-- Claim C4: when a worker wakes holding the pool mutex (its `popa` step is
enabled and taken), it exits its loop iff the stopping flag is set and the task
container is empty at that moment; in every other case the container is
non-empty and the worker removes the front task and turns running; in
particular it never exits while a pending task remains. -/
theorem c4_worker_exit_iff (s : St) (i : Nat) (s' : St)
    (hw : s.workers.get? i = some WStat.waiting)
    (hstep : stepStd s (Act.popa i) = some s') :
    (s'.workers.get? i = some WStat.exited ↔ (s.stopping = true ∧ s.queue = []))
    ∧ (∀ id rest, s.queue = id :: rest →
        s'.workers.get? i = some (WStat.running id) ∧ s'.queue = rest)
    ∧ (s'.workers.get? i = some WStat.exited → s.queue = []) := by
  have hi : i < s.workers.length := getq_lt hw
  simp only [stepStd, hw] at hstep
  split at hstep
  · next hc =>
    injection hstep with hs
    subst hs
    refine ⟨iff_of_true (getq_set_self s.workers i WStat.exited hi) hc, ?_, fun _ => hc.2⟩
    intro id rest hq
    rw [hq] at hc
    exact absurd hc.2 (List.cons_ne_nil id rest)
  · next hc =>
    split at hstep
    · exact Option.noConfusion hstep
    · next id rest heq =>
      injection hstep with hs
      subst hs
      have hrun : (s.workers.set i (WStat.running id)).get? i = some (WStat.running id) :=
        getq_set_self s.workers i (WStat.running id) hi
      have lfalse : ¬((s.workers.set i (WStat.running id)).get? i = some WStat.exited) := by
        intro hx
        rw [hrun] at hx
        exact WStat.noConfusion (Option.some.inj hx)
      refine ⟨?_, ?_, fun hx => absurd hx lfalse⟩
      · refine iff_of_false lfalse ?_
        intro hx
        rw [heq] at hx
        exact List.cons_ne_nil id rest hx.2
      · intro id2 rest2 hq2
        have hcc : id :: rest = id2 :: rest2 := heq.symm.trans hq2
        injection hcc with h1 h2
        subst h1
        subst h2
        exact ⟨hrun, rfl⟩

/-- A concrete state for the C4 witness: one waiting worker, empty container,
stopping flag set. -/
def c4StateIn : St :=
  { bodies := []
    futures := []
    queue := []
    workers := [WStat.waiting]
    executed := []
    stopping := true }

/-- The state the C4 witness steps to: the worker has exited. -/
def c4StateOut : St :=
  { bodies := []
    futures := []
    queue := []
    workers := [WStat.exited]
    executed := []
    stopping := true }

theorem c4_worker_exit_iff_witness :
    c4StateOut.workers.get? 0 = some WStat.exited
      ↔ (c4StateIn.stopping = true ∧ c4StateIn.queue = []) :=
  (c4_worker_exit_iff c4StateIn 0 c4StateOut (by rfl) (by rfl)).1

/-! ## Claim C10: the delegated pop has no stopping escape -/

/-- Claim C10: `detail::queue::pop` waits only for the queue to become
non-empty (no stopping escape), so on a queue that stays empty it never returns
(`none` in the blocked-call embedding), and it returns iff the queue is
non-empty; and whenever a `thread_pool_safe` worker reaches the pop call (its
wake predicate held and the exit branch was not taken, all under the pool
mutex), the container is non-empty, so the pop finds an element: it yields the
front id and the worker turns running on it. -/
theorem c10_pop_no_stop_escape :
    (∀ q : List Nat, detail.pop q = none ↔ q = [])
    ∧ (∀ (s : St) (i : Nat), s.workers.get? i = some WStat.waiting →
        ¬(s.stopping = true ∧ s.queue = []) →
        (s.stopping = true ∨ s.queue ≠ []) →
        detail.pop s.queue = some (s.queue.headI, s.queue.tail)
          ∧ stepSafe s (Act.popa i) =
              some { s with
                queue := s.queue.tail
                workers := s.workers.set i (WStat.running s.queue.headI) }) := by
  constructor
  · intro q
    cases q <;> simp [detail.pop]
  · intro s i hw hnot hwake
    have hne : s.queue ≠ [] := by
      rcases hwake with hstop | hne
      · intro hq
        exact hnot ⟨hstop, hq⟩
      · exact hne
    cases hq : s.queue with
    | nil => exact absurd hq hne
    | cons id rest =>
      constructor
      · rfl
      · simp only [stepSafe, hw]
        rw [if_neg hnot, hq]
        rfl

/-- A concrete state for the C10 witness: one waiting worker and one pending
task id in the container, pool not stopping. -/
def c10State : St :=
  { bodies := []
    futures := []
    queue := [0]
    workers := [WStat.waiting]
    executed := []
    stopping := false }

theorem c10_pop_no_stop_escape_witness :
    detail.pop c10State.queue = some (c10State.queue.headI, c10State.queue.tail)
      ∧ stepSafe c10State (Act.popa 0) =
          some { c10State with
            queue := c10State.queue.tail
            workers := c10State.workers.set 0 (WStat.running c10State.queue.headI) } :=
  c10_pop_no_stop_escape.2 c10State 0 (by rfl) (by decide) (by decide)

/-! ## Claim C6: the worker count is fixed -/

theorem step_workers_length (s : St) (a : Act) (s' : St)
    (h : stepStd s a = some s') : s'.workers.length = s.workers.length := by
  cases a with
  | enqueue f =>
    injection h with hs
    subst hs
    rfl
  | stop =>
    injection h with hs
    subst hs
    rfl
  | popa i =>
    simp only [stepStd] at h
    split at h
    · split at h
      · injection h with hs
        subst hs
        exact List.length_set s.workers i WStat.exited
      · split at h
        · exact Option.noConfusion h
        · injection h with hs
          subst hs
          exact List.length_set s.workers i _
    · exact Option.noConfusion h
  | exec i =>
    simp only [stepStd] at h
    split at h
    · injection h with hs
      subst hs
      exact List.length_set s.workers i WStat.waiting
    · exact Option.noConfusion h

theorem run_workers_length (acts : List Act) :
    ∀ (s s' : St), runStd s acts = some s' → s'.workers.length = s.workers.length := by
  induction acts with
  | nil =>
    intro s s' h
    injection h with hs
    subst hs
    rfl
  | cons a as ih =>
    intro s s' h
    show s'.workers.length = s.workers.length
    have hm : runWith stepStd s (a :: as) = some s' := h
    simp only [runWith] at hm
    cases hstep : stepStd s a with
    | none => rw [hstep] at hm; exact Option.noConfusion hm
    | some t =>
      rw [hstep] at hm
      rw [ih t s' hm]
      exact step_workers_length s a t hstep

/-- Claim C6: a pool constructed with `threadCount = n` spawns exactly `n`
workers (each starting Waiting), `count()` returns `n` right after
construction, and after every subsequent sequence of operations it still
returns `n`: no step of either discipline changes the `_threads` collection. -/
theorem c6_count_fixed (n : Nat) (acts : List Act) (s' : St)
    (hrun : runStd (initPool n) acts = some s') :
    count s' = n
    ∧ count (initPool n) = n
    ∧ (initPool n).workers = List.replicate n WStat.waiting := by
  refine ⟨?_, ?_, rfl⟩
  · have h := run_workers_length acts (initPool n) s' hrun
    rw [count, h]
    exact List.length_replicate n WStat.waiting
  · exact List.length_replicate n WStat.waiting

/-- The state a two-worker pool is in after `stop()` and nothing else. -/
def c6State : St :=
  { bodies := []
    futures := []
    queue := []
    workers := List.replicate 2 WStat.waiting
    executed := []
    stopping := true }

theorem c6_count_fixed_witness :
    count c6State = 2
    ∧ count (initPool 2) = 2
    ∧ (initPool 2).workers = List.replicate 2 WStat.waiting :=
  c6_count_fixed 2 [Act.stop] c6State (by rfl)

/-! ## Claim C5: task failures are captured, workers survive -/

theorem run3_enqueue_pop_exec (b : List TaskFn) (fu : List (Option (Except Err Val)))
    (w : List WStat) (ex : List Nat) (i : Nat) (g : TaskFn)
    (hw : w.get? i = some WStat.waiting) :
    runStd ⟨b, fu, [], w, ex, false⟩ [Act.enqueue g, Act.popa i, Act.exec i]
      = some ⟨b ++ [g], (fu ++ [none]).set b.length (some (g ())),
              [], (w.set i (WStat.running b.length)).set i WStat.waiting,
              ex ++ [b.length], false⟩ := by
  have hi : i < w.length := getq_lt hw
  have hset : (w.set i (WStat.running b.length)).get? i = some (WStat.running b.length) :=
    getq_set_self w i _ hi
  have hbody : (b ++ [g]).get? b.length = some g := getq_concat_self b g
  show runWith stepStd _ _ = _
  simp only [runWith, stepStd, runBody, hw, hset, hbody, List.nil_append,
    Bool.false_eq_true, false_and, if_false]

/-- Claim C5: when a worker executes a task whose body raises a failure, the
failure is captured into that task's future (read side observes it), the
worker itself survives (it returns to waiting, it does not exit), and the pool
still executes tasks submitted afterwards: from the resulting state, enqueueing
any body `g` and letting the same worker claim and run it succeeds and stores
the outcome of `g` into the new task's future. -/
theorem c5_failure_captured (s : St) (i id : Nat) (f : TaskFn) (e : Err)
    (hw : s.workers.get? i = some (WStat.running id))
    (hb : s.bodies.get? id = some f)
    (hf : f () = Except.error e)
    (hid : id < s.futures.length)
    (hlen : s.bodies.length = s.futures.length) :
    ∃ s2, stepStd s (Act.exec i) = some s2
      ∧ s2.workers.get? i = some WStat.waiting
      ∧ s2.futures.get? id = some (some (Except.error e))
      ∧ (∀ g : TaskFn, s.queue = [] → s.stopping = false →
          ∃ s3, runStd s2 [Act.enqueue g, Act.popa i, Act.exec i] = some s3
            ∧ s3.futures.get? s2.bodies.length = some (some (g ()))) := by
  rcases s with ⟨b, fu, q, w, ex, st⟩
  simp only at hw hb hid hlen
  have hi : i < w.length := getq_lt hw
  have hrb : runBody ⟨b, fu, q, w, ex, st⟩ id = Except.error e := by
    simp only [runBody, hb, hf]
  refine ⟨⟨b, fu.set id (some (Except.error e)), q, w.set i WStat.waiting, ex ++ [id], st⟩,
    ?_, ?_, ?_, ?_⟩
  · simp only [stepStd, hw, hrb]
  · exact getq_set_self w i WStat.waiting hi
  · exact getq_set_self fu id (some (Except.error e)) hid
  · intro g hq hstop
    simp only at hq hstop
    subst hq
    subst hstop
    have hw2 : (w.set i WStat.waiting).get? i = some WStat.waiting :=
      getq_set_self w i WStat.waiting hi
    refine ⟨_, run3_enqueue_pop_exec b (fu.set id (some (Except.error e)))
      (w.set i WStat.waiting) (ex ++ [id]) i g hw2, ?_⟩
    have hlt : b.length < ((fu.set id (some (Except.error e))) ++ [none]).length := by
      rw [List.length_append, List.length_set]
      exact Nat.lt_succ_of_le (Nat.le_of_eq hlen)
    exact getq_set_self _ _ (some (g ())) hlt

/-- A task body that raises the failure message of the spec test scenario. -/
def boomFn : TaskFn := fun _ => Except.error ("boom")

/-- The concrete pool state of the C5 witness: one submitted task whose body
raises, one worker currently running it. -/
def c5State : St :=
  { bodies := [boomFn]
    futures := [none]
    queue := []
    workers := [WStat.running 0]
    executed := []
    stopping := false }

theorem c5_failure_captured_witness :
    (stepStd c5State (Act.exec 0)).bind (fun s2 => s2.futures.get? 0)
      = some (some (Except.error ("boom"))) := by
  obtain ⟨s2, h1, h2, h3, h4⟩ :=
    c5_failure_captured c5State 0 0 boomFn ("boom") (by rfl) (by rfl) (by rfl)
      (by decide) (by decide)
  rw [h1]
  exact h3

/-! ## Claim C8: FIFO dispatch with a single worker -/

/-- The ids of the tasks currently claimed by workers (moved out of the
container, execution not yet finished). -/
def heldIds (s : St) : List Nat :=
  s.workers.filterMap (fun w =>
    match w with
    | WStat.running id => some id
    | _ => none)

/-- The dispatch-order invariant of a single-worker pool: the executed log,
then the claimed task, then the pending container, is exactly the submission
sequence `0, 1, ..., bodies.length - 1` in order. -/
def fifoInv (s : St) : Prop :=
  s.executed ++ heldIds s ++ s.queue = List.range s.bodies.length

theorem getq_singleton {α : Type} {w x : α} {i : Nat}
    (h : ([w] : List α).get? i = some x) : i = 0 ∧ w = x := by
  cases i with
  | zero => exact ⟨rfl, Option.some.inj h⟩
  | succ n => exact Option.noConfusion h

theorem len1_singleton {α : Type} {l : List α} (h : l.length = 1) : ∃ w, l = [w] := by
  cases l with
  | nil => exact absurd h (by simp)
  | cons w ws =>
    cases ws with
    | nil => exact ⟨w, rfl⟩
    | cons b bs => simp at h

theorem fifo_step (s : St) (a : Act) (s' : St)
    (h : stepStd s a = some s')
    (hlen1 : s.workers.length = 1)
    (hinv : fifoInv s) : fifoInv s' := by
  obtain ⟨w, hws⟩ := len1_singleton hlen1
  rw [fifoInv] at hinv ⊢
  cases a with
  | enqueue f =>
    injection h with hs
    subst hs
    show s.executed ++ heldIds s ++ (s.queue ++ [s.bodies.length])
        = List.range (s.bodies ++ [f]).length
    rw [List.length_append, List.length_singleton, List.range_succ, ← List.append_assoc, hinv]
  | stop =>
    injection h with hs
    subst hs
    exact hinv
  | popa i =>
    simp only [stepStd] at h
    split at h
    case h_2 => exact Option.noConfusion h
    case h_1 hwait =>
      rw [hws] at hwait
      obtain ⟨hi0, hww⟩ := getq_singleton hwait
      subst hi0
      subst hww
      have hheld : heldIds s = [] := by
        rw [heldIds, hws]
        rfl
      rw [hheld, List.append_nil] at hinv
      split at h
      · next hc =>
        injection h with hs
        subst hs
        show s.executed ++ heldIds { s with workers := s.workers.set 0 WStat.exited } ++ s.queue
            = List.range s.bodies.length
        have hh2 : heldIds { s with workers := s.workers.set 0 WStat.exited } = [] := by
          rw [heldIds, hws]
          rfl
        rw [hh2, List.append_nil]
        exact hinv
      · split at h
        · exact Option.noConfusion h
        · next id rest heq =>
          injection h with hs
          subst hs
          have hh2 : heldIds { s with queue := rest, workers := s.workers.set 0 (WStat.running id) } = [id] := by
            rw [heldIds, hws]
            rfl
          show s.executed ++ heldIds { s with queue := rest, workers := s.workers.set 0 (WStat.running id) } ++ rest
            = List.range s.bodies.length
          rw [hh2]
          rw [heq] at hinv
          rw [← hinv, List.append_assoc, List.singleton_append]
  | exec i =>
    simp only [stepStd] at h
    split at h
    case h_2 => exact Option.noConfusion h
    case h_1 id hrunw =>
      rw [hws] at hrunw
      obtain ⟨hi0, hww⟩ := getq_singleton hrunw
      subst hi0
      subst hww
      injection h with hs
      subst hs
      have hh1 : heldIds s = [id] := by
        rw [heldIds, hws]
        rfl
      have hh2 : heldIds { s with futures := s.futures.set id (some (runBody s id)), executed := s.executed ++ [id], workers := s.workers.set 0 WStat.waiting } = [] := by
        rw [heldIds, hws]
        rfl
      show (s.executed ++ [id]) ++ heldIds { s with futures := s.futures.set id (some (runBody s id)), executed := s.executed ++ [id], workers := s.workers.set 0 WStat.waiting } ++ s.queue
        = List.range s.bodies.length
      rw [hh2, List.append_nil]
      rw [hh1] at hinv
      rw [← hinv, List.append_assoc, List.singleton_append]

theorem fifo_run (acts : List Act) :
    ∀ (s s' : St), runStd s acts = some s' → s.workers.length = 1 →
      fifoInv s → fifoInv s' := by
  induction acts with
  | nil =>
    intro s s' h hl hi
    injection h with hs
    subst hs
    exact hi
  | cons a as ih =>
    intro s s' h hl hi
    have hm : runWith stepStd s (a :: as) = some s' := h
    simp only [runWith] at hm
    cases hstep : stepStd s a with
    | none => rw [hstep] at hm; exact Option.noConfusion hm
    | some t =>
      rw [hstep] at hm
      have hlt : t.workers.length = 1 := by
        rw [step_workers_length s a t hstep]
        exact hl
      exact ih t s' hm hlt (fifo_step s a t hstep hl hi)

/-- Claim C8: with a single worker, tasks are dispatched in exact submission
(FIFO) order: in every reachable state of a one-worker pool the executed log
is exactly the initial segment of the submission sequence, and whenever task
`idB` has started (its id was claimed by the worker, or it already finished),
every earlier-submitted task `idA < idB` has already completed. -/
theorem c8_fifo_single_worker (acts : List Act) (s' : St)
    (hrun : runStd (initPool 1) acts = some s')
    (idA idB : Nat) (hAB : idA < idB)
    (hB : idB ∈ heldIds s' ∨ idB ∈ s'.executed) :
    idA ∈ s'.executed ∧ s'.executed = List.range s'.executed.length := by
  have hlen1 : s'.workers.length = 1 := by
    rw [run_workers_length acts (initPool 1) s' hrun]
    rfl
  have hinv : s'.executed ++ heldIds s' ++ s'.queue = List.range s'.bodies.length :=
    fifo_run acts (initPool 1) s' hrun rfl rfl
  have h1 : s'.executed ++ (heldIds s' ++ s'.queue) = List.range s'.bodies.length := by
    rw [← List.append_assoc]
    exact hinv
  have hle : s'.executed.length ≤ s'.bodies.length := by
    have hl := congrArg List.length h1
    simp only [List.length_append, List.length_range] at hl
    omega
  have hex : s'.executed = List.range s'.executed.length := by
    have h2 := congrArg (List.take s'.executed.length) h1
    rw [List.take_left, List.take_range, Nat.min_eq_left hle] at h2
    exact h2
  rcases hB with hBh | hBe
  · obtain ⟨w, hws⟩ := len1_singleton hlen1
    have hheld : heldIds s' = [idB] := by
      rw [heldIds, hws] at hBh ⊢
      cases w with
      | waiting => simp [List.filterMap] at hBh
      | exited => simp [List.filterMap] at hBh
      | running id =>
        have : idB = id := by
          simpa [List.filterMap] using hBh
        rw [this]
        rfl
    rw [hheld] at h1
    have hdrop := congrArg (List.drop s'.executed.length) h1
    rw [List.drop_left] at hdrop
    have hlt : s'.executed.length < s'.bodies.length := by
      have hl := congrArg List.length hdrop
      simp only [List.length_append, List.length_singleton, List.length_drop,
        List.length_range] at hl
      omega
    rw [List.drop_eq_getElem_cons (by rw [List.length_range]; exact hlt),
      List.getElem_range] at hdrop
    have hidB : idB = s'.executed.length := by
      have := (List.cons.injEq _ _ _ _).mp hdrop
      exact this.1
    rw [hidB] at hAB
    exact ⟨by rw [hex]; exact List.mem_range.mpr hAB, hex⟩
  · have hBlt : idB < s'.executed.length := by
      rw [hex] at hBe
      exact List.mem_range.mp hBe
    exact ⟨by rw [hex]; exact List.mem_range.mpr (Nat.lt_trans hAB hBlt), hex⟩

/-- A task body returning the given value. -/
def retFn (v : Val) : TaskFn := fun _ => Except.ok v

/-- The state of a one-worker pool after submitting tasks 0 and 1, letting the
worker complete task 0 and claim task 1. -/
def c8State : St :=
  { bodies := [retFn 10, retFn 20]
    futures := [some (Except.ok 10), none]
    queue := []
    workers := [WStat.running 1]
    executed := [0]
    stopping := false }

theorem c8_fifo_single_worker_witness :
    0 ∈ c8State.executed ∧ c8State.executed = List.range c8State.executed.length :=
  c8_fifo_single_worker
    [Act.enqueue (retFn 10), Act.enqueue (retFn 20), Act.popa 0, Act.exec 0, Act.popa 0]
    c8State (by rfl) 0 1 (by decide) (by decide)

/-! ## Claim C3: shutdown drains the queue -/

/-- Every worker of the pool has exited its loop: the point at which the joins
of `stop()` (tpool.hpp lines 195-197) all return, i.e. `stop()` returns. -/
def allExited (s : St) : Prop :=
  ∀ w ∈ s.workers, w = WStat.exited

/-- Task `id` has been claimed by some worker and is being executed. -/
def held (s : St) (id : Nat) : Prop :=
  ∃ i, s.workers.get? i = some (WStat.running id)

/-- Accounting invariant: every submitted task is finished, being executed, or
still pending in the container. -/
def pendingOK (s : St) : Prop :=
  ∀ id, id < s.bodies.length → id ∈ s.executed ∨ held s id ∨ id ∈ s.queue

theorem run_preserve (P : St → Prop)
    (hstep : ∀ s a s', stepStd s a = some s' → P s → P s') (acts : List Act) :
    ∀ (s s' : St), runStd s acts = some s' → P s → P s' := by
  induction acts with
  | nil =>
    intro s s' h hp
    injection h with hs
    subst hs
    exact hp
  | cons a as ih =>
    intro s s' h hp
    have hm : runWith stepStd s (a :: as) = some s' := h
    simp only [runWith] at hm
    cases hs : stepStd s a with
    | none => rw [hs] at hm; exact Option.noConfusion hm
    | some t =>
      rw [hs] at hm
      exact ih t s' hm (hstep s a t hs hp)

theorem pending_step (s : St) (a : Act) (s' : St)
    (h : stepStd s a = some s') (hp : pendingOK s) : pendingOK s' := by
  cases a with
  | enqueue f =>
    injection h with hs
    subst hs
    intro id hid
    have hid2 : id < s.bodies.length ∨ id = s.bodies.length := by
      have : id < s.bodies.length + 1 := by
        simpa [List.length_append] using hid
      omega
    rcases hid2 with hlt | heq
    · rcases hp id hlt with hx | hx | hx
      · exact Or.inl hx
      · exact Or.inr (Or.inl hx)
      · exact Or.inr (Or.inr (List.mem_append_left _ hx))
    · subst heq
      exact Or.inr (Or.inr (List.mem_append_right _ (List.mem_singleton.mpr rfl)))
  | stop =>
    injection h with hs
    subst hs
    exact hp
  | popa i =>
    simp only [stepStd] at h
    split at h
    case h_2 => exact Option.noConfusion h
    case h_1 hwait =>
      have hi : i < s.workers.length := getq_lt hwait
      split at h
      · next hc =>
        injection h with hs
        subst hs
        intro id hid
        rcases hp id hid with hx | ⟨j, hj⟩ | hx
        · exact Or.inl hx
        · have hji : j ≠ i := by
            intro hji
            subst hji
            rw [hwait] at hj
            exact WStat.noConfusion (Option.some.inj hj)
          refine Or.inr (Or.inl ⟨j, ?_⟩)
          show (s.workers.set i WStat.exited).get? j = some (WStat.running id)
          rw [getq_set_ne s.workers i j WStat.exited hji]
          exact hj
        · exact Or.inr (Or.inr hx)
      · split at h
        · exact Option.noConfusion h
        · next id0 rest heq =>
          injection h with hs
          subst hs
          intro id hid
          rcases hp id hid with hx | ⟨j, hj⟩ | hx
          · exact Or.inl hx
          · have hji : j ≠ i := by
              intro hji
              subst hji
              rw [hwait] at hj
              exact WStat.noConfusion (Option.some.inj hj)
            refine Or.inr (Or.inl ⟨j, ?_⟩)
            show (s.workers.set i (WStat.running id0)).get? j = some (WStat.running id)
            rw [getq_set_ne s.workers i j (WStat.running id0) hji]
            exact hj
          · rw [heq] at hx
            rcases List.mem_cons.mp hx with hx0 | hxr
            · subst hx0
              refine Or.inr (Or.inl ⟨i, ?_⟩)
              exact getq_set_self s.workers i (WStat.running id) hi
            · exact Or.inr (Or.inr hxr)
  | exec i =>
    simp only [stepStd] at h
    split at h
    case h_2 => exact Option.noConfusion h
    case h_1 id0 hrunw =>
      have hi : i < s.workers.length := getq_lt hrunw
      injection h with hs
      subst hs
      intro id hid
      rcases hp id hid with hx | ⟨j, hj⟩ | hx
      · exact Or.inl (List.mem_append_left _ hx)
      · by_cases hji : j = i
        · subst hji
          rw [hrunw] at hj
          have : id0 = id := by
            have := Option.some.inj hj
            exact WStat.running.inj this
          subst this
          exact Or.inl (List.mem_append_right _ (List.mem_singleton.mpr rfl))
        · refine Or.inr (Or.inl ⟨j, ?_⟩)
          show (s.workers.set i WStat.waiting).get? j = some (WStat.running id)
          rw [getq_set_ne s.workers i j WStat.waiting hji]
          exact hj
      · exact Or.inr (Or.inr hx)

theorem nostop_step (s : St) (a : Act) (s' : St)
    (h : stepStd s a = some s') (hns : a ≠ Act.stop) (hstop : s.stopping = false) :
    s'.stopping = false
    ∧ ∀ i, s'.workers.get? i = some WStat.exited → s.workers.get? i = some WStat.exited := by
  cases a with
  | enqueue f =>
    injection h with hs
    subst hs
    exact ⟨hstop, fun i hx => hx⟩
  | stop => exact absurd rfl hns
  | popa i =>
    simp only [stepStd] at h
    split at h
    case h_2 => exact Option.noConfusion h
    case h_1 hwait =>
      split at h
      · next hc =>
        rw [hstop] at hc
        exact absurd hc.1 (by simp)
      · split at h
        · exact Option.noConfusion h
        · next id0 rest heq =>
          injection h with hs
          subst hs
          refine ⟨hstop, ?_⟩
          intro j hj
          by_cases hji : j = i
          · subst hji
            have hset : (s.workers.set j (WStat.running id0)).get? j
                = some (WStat.running id0) :=
              getq_set_self s.workers j (WStat.running id0) (getq_lt hwait)
            rw [hset] at hj
            exact WStat.noConfusion (Option.some.inj hj)
          · rw [getq_set_ne s.workers i j (WStat.running id0) hji] at hj
            exact hj
  | exec i =>
    simp only [stepStd] at h
    split at h
    case h_2 => exact Option.noConfusion h
    case h_1 id0 hrunw =>
      injection h with hs
      subst hs
      refine ⟨hstop, ?_⟩
      intro j hj
      by_cases hji : j = i
      · subst hji
        have hset : (s.workers.set j WStat.waiting).get? j = some WStat.waiting :=
          getq_set_self s.workers j WStat.waiting (getq_lt hrunw)
        rw [hset] at hj
        exact WStat.noConfusion (Option.some.inj hj)
      · rw [getq_set_ne s.workers i j WStat.waiting hji] at hj
        exact hj

theorem nostop_run (acts : List Act) (hnostop : Act.stop ∉ acts) :
    ∀ (s s' : St), runStd s acts = some s' → s.stopping = false →
      s'.stopping = false
      ∧ ∀ i, s'.workers.get? i = some WStat.exited →
          s.workers.get? i = some WStat.exited := by
  induction acts with
  | nil =>
    intro s s' h hstop
    injection h with hs
    subst hs
    exact ⟨hstop, fun i hx => hx⟩
  | cons a as ih =>
    intro s s' h hstop
    have hm : runWith stepStd s (a :: as) = some s' := h
    simp only [runWith] at hm
    cases hs : stepStd s a with
    | none => rw [hs] at hm; exact Option.noConfusion hm
    | some t =>
      rw [hs] at hm
      have hna : a ≠ Act.stop := by
        intro hhead
        exact hnostop (hhead ▸ List.mem_cons_self a as)
      have h1 := nostop_step s a t hs hna hstop
      have h2 := ih (fun hmem => hnostop (List.mem_cons_of_mem a hmem)) t s' hm h1.1
      exact ⟨h2.1, fun i hx => h1.2 i (h2.2 i hx)⟩

theorem drainq_step (s : St) (a : Act) (s' : St)
    (h : stepStd s a = some s') (hne : ∀ f, a ≠ Act.enqueue f)
    (hq : allExited s → s.queue = []) : allExited s' → s'.queue = [] := by
  cases a with
  | enqueue f => exact absurd rfl (hne f)
  | stop =>
    injection h with hs
    subst hs
    intro hall
    exact hq hall
  | popa i =>
    simp only [stepStd] at h
    split at h
    case h_2 => exact Option.noConfusion h
    case h_1 hwait =>
      split at h
      · next hc =>
        injection h with hs
        subst hs
        intro _
        exact hc.2
      · split at h
        · exact Option.noConfusion h
        · next id0 rest heq =>
          injection h with hs
          subst hs
          intro hall
          have hmem : WStat.running id0 ∈ s.workers.set i (WStat.running id0) :=
            List.get?_mem (getq_set_self s.workers i (WStat.running id0) (getq_lt hwait))
          exact absurd (hall (WStat.running id0) hmem) (by simp)
  | exec i =>
    simp only [stepStd] at h
    split at h
    case h_2 => exact Option.noConfusion h
    case h_1 id0 hrunw =>
      injection h with hs
      subst hs
      intro hall
      have hmem : WStat.waiting ∈ s.workers.set i WStat.waiting :=
        List.get?_mem (getq_set_self s.workers i WStat.waiting (getq_lt hrunw))
      exact absurd (hall WStat.waiting hmem) (by simp)

theorem drainq_run (acts : List Act) (hne : ∀ f, Act.enqueue f ∉ acts) :
    ∀ (s s' : St), runStd s acts = some s' →
      (allExited s → s.queue = []) → (allExited s' → s'.queue = []) := by
  induction acts with
  | nil =>
    intro s s' h hq
    injection h with hs
    subst hs
    exact hq
  | cons a as ih =>
    intro s s' h hq
    have hm : runWith stepStd s (a :: as) = some s' := h
    simp only [runWith] at hm
    cases hs : stepStd s a with
    | none => rw [hs] at hm; exact Option.noConfusion hm
    | some t =>
      rw [hs] at hm
      have hna : ∀ f, a ≠ Act.enqueue f := by
        intro f hhead
        exact hne f (hhead ▸ List.mem_cons_self a as)
      exact ih (fun f hmem => hne f (List.mem_cons_of_mem a hmem)) t s' hm
        (drainq_step s a t hs hna hq)

theorem runWith_append (step : St → Act → Option St) (l1 l2 : List Act) :
    ∀ s : St, runWith step s (l1 ++ l2)
      = match runWith step s l1 with
        | none => none
        | some t => runWith step t l2 := by
  induction l1 with
  | nil =>
    intro s
    rfl
  | cons a as ih =>
    intro s
    show runWith step s (a :: (as ++ l2)) = _
    simp only [runWith]
    cases step s a with
    | none => rfl
    | some t => exact ih t

theorem get0_of_pos {α : Type} {l : List α} (h : 0 < l.length) :
    ∃ w, l.get? 0 = some w := by
  cases l with
  | nil => exact absurd h (by simp)
  | cons x xs => exact ⟨x, rfl⟩

/-- Counterexample to claim C3 as stated: a pool constructed with zero workers.
`stop()` sets the stopping flag and joins the (empty) collection of workers, so
shutdown returns (`allExited` holds vacuously: `workers = []`), yet the one
task enqueued before the shutdown was never executed: the final state still has
task 0 pending in the container and an empty executed log. -/
theorem c3_zero_workers_counterexample :
    (runStd (initPool 0) [Act.enqueue (retFn 1), Act.stop]).map
        (fun s => (s.queue, s.executed, s.workers, s.stopping))
      = some ([0], [], [], true) := by
  rfl

/-- Claim C3 (amended: the pool must have at least one worker thread). Shutdown
drains: `stop()` sets the stopping flag (after which no further submissions
happen here, matching the claim's scope of tasks enqueued before shutdown), and
once every worker has been joined (all workers Exited, the point where `stop()`
returns), the pending container is empty and every submitted task has been
executed. For a pool constructed with `threadCount = 0` this fails
(`c3_zero_workers_counterexample`). -/
theorem c3_shutdown_drains (n : Nat) (pre post : List Act) (s' : St)
    (hn : 1 ≤ n)
    (hpre : Act.stop ∉ pre)
    (hpost : ∀ f, Act.enqueue f ∉ post)
    (hrun : runStd (initPool n) (pre ++ Act.stop :: post) = some s')
    (hdone : allExited s') :
    s'.queue = [] ∧ ∀ id, id < s'.bodies.length → id ∈ s'.executed := by
  have hsplit := runWith_append stepStd pre (Act.stop :: post) (initPool n)
  rw [show runStd (initPool n) (pre ++ Act.stop :: post)
      = runWith stepStd (initPool n) (pre ++ Act.stop :: post) from rfl, hsplit] at hrun
  cases hm : runWith stepStd (initPool n) pre with
  | none => rw [hm] at hrun; exact Option.noConfusion hrun
  | some m =>
    rw [hm] at hrun
    have hnostop := nostop_run pre hpre (initPool n) m hm rfl
    have hnoex : ∀ i, m.workers.get? i ≠ some WStat.exited := by
      intro i hx
      have hinit := hnostop.2 i hx
      have hmem : WStat.exited ∈ (initPool n).workers := List.get?_mem hinit
      have := List.eq_of_mem_replicate hmem
      exact WStat.noConfusion this
    have hmlen : m.workers.length = n := by
      rw [run_workers_length pre (initPool n) m hm]
      exact List.length_replicate n WStat.waiting
    simp only [runWith, stepStd] at hrun
    have hmidq : allExited { m with stopping := true }
        → ({ m with stopping := true } : St).queue = [] := by
      intro hall
      obtain ⟨w, hw0⟩ := get0_of_pos (by rw [hmlen]; exact hn)
      have hwex : w = WStat.exited := hall w (List.get?_mem hw0)
      subst hwex
      exact absurd hw0 (hnoex 0)
    have hqs' : s'.queue = [] :=
      drainq_run post hpost { m with stopping := true } s' hrun hmidq hdone
    have hpend : pendingOK s' := by
      refine run_preserve pendingOK pending_step (pre ++ Act.stop :: post) (initPool n) s' ?_ ?_
      · rw [show runStd (initPool n) (pre ++ Act.stop :: post)
          = runWith stepStd (initPool n) (pre ++ Act.stop :: post) from rfl, hsplit, hm]
        simp only [runWith, stepStd]
        exact hrun
      · intro id hid
        exact absurd hid (by simp [initPool])
    refine ⟨hqs', ?_⟩
    intro id hid
    rcases hpend id hid with hx | ⟨j, hj⟩ | hx
    · exact hx
    · have hmem : WStat.running id ∈ s'.workers := List.get?_mem hj
      exact absurd (hdone (WStat.running id) hmem) (by simp)
    · rw [hqs'] at hx
      exact absurd hx (by simp)

/-- The state a one-worker pool reaches after submitting one task, shutting
down and letting the worker drain and exit. -/
def c3State : St :=
  { bodies := [retFn 5]
    futures := [some (Except.ok 5)]
    queue := []
    workers := [WStat.exited]
    executed := [0]
    stopping := true }

theorem c3_shutdown_drains_witness :
    c3State.queue = [] ∧ ∀ id, id < c3State.bodies.length → id ∈ c3State.executed :=
  c3_shutdown_drains 1 [Act.enqueue (retFn 5)] [Act.popa 0, Act.exec 0, Act.popa 0] c3State
    (by decide) (by simp) (by intro f; simp) (by rfl)
    (by intro w hw; simp [c3State] at hw; exact hw)

end TPool
